import Mathlib

/-!
# FPC voting engine — verification of the spec against the source

This file embeds the FPC (Fast Probabilistic Consensus) voting engine of the
repository (package `fpc`) into Lean 4 and proves the specification claims
about it.  Go `float64` values are modelled as rationals `ℚ` (exact
arithmetic); Go maps are modelled as association lists with the usual
update/erase/lookup operations; code that can panic (out-of-range indexing,
`rand.Intn(0)`) is modelled with `Option`, `none` standing for a panic.

The `context` state type of the engine (`newContext`, `pushTxs`, `popTxs`,
`getActiveTxs`, the opinion-history store with `Load`/`Store`/`Delete`, and
the `Parameters` struct) lives in a source file that is not part of the
sources given here; those definitions are modelled from the spec (§3, §4.1,
§4.2, §6) and are marked `Modelled from the spec:` below.  Everything else is
translated directly from the source of package `fpc`.
-/

namespace Fpc

/-- `ID` is the unique identifier of the queried object (a transaction hash).
Source: `type ID string`. -/
abbrev ID := String

/-- `Opinions` is a list of opinions.  Source: `type Opinions []bool`. -/
abbrev Opinions := List Bool

/-- Source: `const Like = true`. -/
def Like : Bool := true

/-- Source: `const Dislike = false`. -/
def Dislike : Bool := false

/-- `TxOpinion` is the current opinion of a tx.
Source: `type TxOpinion struct { TxHash ID; Opinion bool }`. -/
structure TxOpinion where
  txHash : ID
  opinion : Bool
  deriving DecidableEq, Repr

/-- `etaResult` is the eta of an FPC round of a tx: `value` is the value of
eta (a `float64`, modelled as `ℚ`; the sentinel `-1` means "no data yet") and
`count` is how many nodes replied to our query.
Source: `type etaResult struct { value float64; count int }`. -/
structure etaResult where
  value : ℚ
  count : ℕ
  deriving DecidableEq, Repr

/-- Modelled from the spec: the `Parameters` struct of the engine is not in
the given sources; §6 lists its fields: `k` query fanout, `a`,`b` first-round
threshold bounds, `beta` half-width for later rounds, `m` cooldown length and
`l` stability window. -/
structure Parameters where
  k : ℕ
  a : ℚ
  b : ℚ
  beta : ℚ
  m : ℕ
  l : ℕ
  deriving DecidableEq, Repr

/-- A tick carries the round index and the common random number.
Source: `type tick struct { index uint64; x float64 }`. -/
structure tick where
  index : ℕ
  x : ℚ
  deriving DecidableEq, Repr

/-- Source: `func newTick(index uint64, random float64) *tick`. -/
def newTick (index : ℕ) (random : ℚ) : tick :=
  ⟨index, random⟩

/-! ## Association lists standing for Go maps -/

/-- Lookup in an association list: the Go map read `m[k]` (with its `ok`
flag encoded by `Option`). -/
def alookup {α : Type} (m : List (ID × α)) (k : ID) : Option α :=
  match m with
  | [] => none
  | (k', v) :: rest => if k' = k then some v else alookup rest k

/-- Update in an association list: the Go map write `m[k] = v` (replaces the
binding when present, otherwise adds it). -/
def aupdate {α : Type} (m : List (ID × α)) (k : ID) (v : α) : List (ID × α) :=
  match m with
  | [] => [(k, v)]
  | (k', v') :: rest => if k' = k then (k, v) :: rest else (k', v') :: aupdate rest k v

/-- Erase from an association list: the Go `delete(m, k)`. -/
def aerase {α : Type} (m : List (ID × α)) (k : ID) : List (ID × α) :=
  match m with
  | [] => []
  | (k', v') :: rest => if k' = k then aerase rest k else (k', v') :: aerase rest k

/-- The keys bound by an association list. -/
def akeys {α : Type} (m : List (ID × α)) : List ID :=
  m.map Prod.fst

/-! ## The engine's pure functions, translated from the source -/

/-- Returns the last opinion in the list, together with the error slot of the
Go multi-value return: `(false, some msg)` when the list is empty (callers
discard the error and use the `false`).
Source: `func getLastOpinion(list Opinions) (bool, error)`. -/
def getLastOpinion (list : Opinions) : Bool × Option String :=
  if 0 < list.length then (list.getLastD false, none)
  else (false, some "opinion is empty")

/-- Returns the finalization status given a list of opinions of a particular
tx.  Source: `func isFinal(o Opinions, m, l int) bool`.  `m` and `l` are
taken as naturals (the spec's parameter ranges are `m ≥ 0`, `l ≥ 1`); the
`o == nil` guard of the source is subsumed by the length test whenever
`m + l ≥ 1`, and the index `o[len(o)-l]` (in bounds in Go whenever the
length test passed and `l ≥ 1`) is totalized with a default. -/
def isFinal (o : Opinions) (m l : ℕ) : Bool :=
  if o.length < m + l then false
  else
    let finalProposal := o.getD (o.length - l) false
    (o.drop (o.length - l + 1)).all (fun opinion => opinion == finalProposal)

/-- Returns a threshold between a lower and an upper bound, driven by the
common random.  Source: `func runif(rand, thresholdL, thresholdU float64)
float64`. -/
def runif (rand thresholdL thresholdU : ℚ) : ℚ :=
  thresholdL + rand * (thresholdU - thresholdL)

/-- The threshold computed inline by `updateOpinion`: first decision round
(history length 1) uses `runif(x, a, b)`, successive rounds use
`runif(x, beta, 1-beta)`. -/
def roundThreshold (x a b beta : ℚ) (historyLen : ℕ) : ℚ :=
  if historyLen = 1 then runif x a b
  else runif x beta (1 - beta)

/-- The engine state.  Source: the `context` type (in a source file not given
here); its fields are those the engine code reads: the waiting list fed by
`pushTxs` and drained by `popTxs` (spec §3 WaitingSet), the active tx map
`activeTxs` (spec §3 ActiveSet), the opinion-history store (spec §4.1), the
immutable `parameters` and the current `tick`. -/
structure context where
  waitingTxs : List TxOpinion
  activeTxs : List (ID × etaResult)
  opinionHistory : List (ID × Opinions)
  parameters : Parameters
  tick : Fpc.tick
  deriving DecidableEq

/-- Modelled from the spec: `pushTxs` (the body of `SubmitTxsForVoting`) is
in a source file not given here; §4.2/§4.7: `Submit` appends the given
entries to the WaitingSet. -/
def pushTxs (s : context) (txs : List TxOpinion) : context :=
  { s with waitingTxs := s.waitingTxs ++ txs }

/-- Modelled from the spec: `popTxs` is in a source file not given here;
§4.2: `promote()` drains the WaitingSet, inserts each tx into ActiveSet with
EtaResult `{value: -1, count: 0}` and initializes its OpinionHistory with the
submitted initial opinion; a tx already in ActiveSet is ignored; among
duplicate submissions the later one wins. -/
def popTxs (s : context) : context :=
  let fresh := s.waitingTxs.filter (fun t => (alookup s.activeTxs t.txHash).isNone)
  { s with
    waitingTxs := []
    activeTxs := fresh.foldl (fun m t => aupdate m t.txHash ⟨-1, 0⟩) s.activeTxs
    opinionHistory := fresh.foldl (fun m t => aupdate m t.txHash [t.opinion]) s.opinionHistory }

/-- Modelled from the spec: `getActiveTxs` is in a source file not given
here; §4.6 phase 4 passes the snapshot of the ActiveSet's tx ids to the
sampler. -/
def getActiveTxs (s : context) : List ID :=
  akeys s.activeTxs

/-- One entry of `updateOpinion`'s loop body: if the tx has a recorded
history (`Load` ok) and its eta value is not the `-1` sentinel, compute the
threshold and append `eta.value > threshold` to the history (the history
store's `Store(tx, opinion)` appends — spec §4.1). -/
def updStep (p : Parameters) (x : ℚ) (histories : List (ID × Opinions))
    (entry : ID × etaResult) : List (ID × Opinions) :=
  match alookup histories entry.1 with
  | some history =>
    if entry.2.value ≠ -1 then
      aupdate histories entry.1
        (history ++ [decide (entry.2.value > roundThreshold x p.a p.b p.beta history.length)])
    else histories
  | none => histories

/-- Loop over all the txs to vote and update the last opinion with the new
threshold.  Source: `func (fpc *Instance) updateOpinion()`. -/
def updateOpinion (s : context) : context :=
  { s with opinionHistory := s.activeTxs.foldl (updStep s.parameters s.tick.x) s.opinionHistory }

/-- One entry of `getFinalizedTxs`' loop body: load the tx's history, check
`isFinal` on `history[1:]` (the first opinion is the initial one); if final,
append `(tx, lastOpinion)` to the finalized list and delete the tx from the
history store and from the active map. -/
def finStep (m l : ℕ)
    (acc : (List (ID × etaResult) × List (ID × Opinions)) × List TxOpinion)
    (tx : ID) : (List (ID × etaResult) × List (ID × Opinions)) × List TxOpinion :=
  let history := (alookup acc.1.2 tx).getD []
  if isFinal (history.drop 1) m l then
    ((aerase acc.1.1 tx, aerase acc.1.2 tx), acc.2 ++ [⟨tx, (getLastOpinion history).1⟩])
  else acc

/-- Source: `func (fpc *Instance) getFinalizedTxs() []TxOpinion` (iterating
the keys of the active map, deleting finalized entries as it goes). -/
def getFinalizedTxs (s : context) : context × List TxOpinion :=
  let r := (akeys s.activeTxs).foldl (finStep s.parameters.m s.parameters.l)
    ((s.activeTxs, s.opinionHistory), [])
  ({ s with activeTxs := r.1.1, opinionHistory := r.1.2 }, r.2)

/-! ## The sampler -/

/-- Selects `k` random nodes with replacement.  Source: `func choose(list
[]string, k int) []string`.  The random draws of `rand.Intn(len(list))` are
supplied by the oracle `picks` (reduced mod `len(list)`); `rand.Intn(0)`
panics in Go, modelled as `none`, which happens exactly when the list is
empty and at least one draw is made. -/
def choose (list : List String) (k : ℕ) (picks : ℕ → ℕ) : Option (List String) :=
  if list.length = 0 ∧ 0 < k then none
  else some ((List.range k).map (fun i => list.getD (picks i % list.length) ""))

/-- The inner loop of `querySample`'s merge step: attribute each received
vote positionally, `result = append(result, TxOpinion{txs[voteIdx], vote})`.
The indexing `txs[voteIdx]` panics in Go when `voteIdx ≥ len(txs)`, modelled
as `none`. -/
def addVotes (txs : List ID) (votes : Opinions) (voteIdx : ℕ)
    (acc : List TxOpinion) : Option (List TxOpinion) :=
  match votes with
  | [] => some acc
  | vote :: rest =>
    match txs[voteIdx]? with
    | some tx => addVotes txs rest (voteIdx + 1) (acc ++ [⟨tx, vote⟩])
    | none => none

/-- One iteration of `querySample`'s merge loop: a non-empty response has
its votes attributed to `result`; an empty one contributes nothing; a panic
(`none`) earlier in the loop aborts everything after it. -/
def mergeStep (txs : List ID) (acc : Option (List TxOpinion)) (votes : Opinions) :
    Option (List TxOpinion) :=
  match acc with
  | some result => if 0 < votes.length then addVotes txs votes 0 result else some result
  | none => none

/-- The merge loop of `querySample`: wait for the `k` responses and merge
them, skipping empty ones. -/
def mergeVotes (txs : List ID) (responses : List Opinions) : Option (List TxOpinion) :=
  responses.foldl (mergeStep txs) (some [])

/-- The loop body of `calculateEtas`: initialize the tx's entry at `{0, 0}`
when absent, increment `value` for a positive vote, and increment `count`. -/
def calcStep (allEtas : List (ID × etaResult)) (vote : TxOpinion) : List (ID × etaResult) :=
  let cur : etaResult := (alookup allEtas vote.txHash).getD ⟨0, 0⟩
  let cur : etaResult := if vote.opinion then { cur with value := cur.value + 1 } else cur
  aupdate allEtas vote.txHash { cur with count := cur.count + 1 }

/-- Processes the responses by calculating etas for all the votes.
Source: `func calculateEtas(votes []TxOpinion) etaMap`: count each vote per
tx (incrementing `value` for a positive one), then divide each `value` by
its `count`. -/
def calculateEtas (votes : List TxOpinion) : List (ID × etaResult) :=
  (votes.foldl calcStep []).map (fun p => (p.1, { p.2 with value := p.2.value / (p.2.count : ℚ) }))

/-- The number of votes received for a tx in a list of collected votes (the
`count` of its aggregated eta). -/
def voteCount (votes : List TxOpinion) (tx : ID) : ℕ :=
  (votes.filter (fun v => v.txHash == tx)).length

/-- The number of positive votes received for a tx in a list of collected
votes. -/
def posCount (votes : List TxOpinion) (tx : ID) : ℕ :=
  (votes.filter (fun v => v.txHash == tx && v.opinion)).length

/-- Sends the query to `k` randomly selected nodes and aggregates the
responses.  Source: `func querySample(txs []ID, k int, nodes []string, qn
QueryNode) etaMap`.  The query of node `n` returns `qn txs n`; the arrival
order of the responses on the channel is immaterial (`calculateEtas` is
order-independent), so responses are merged in selection order.  `none`
models a panic (empty node list with `k ≥ 1`, or a response longer than
`txs`). -/
def querySample (txs : List ID) (k : ℕ) (nodes : List String) (picks : ℕ → ℕ)
    (qn : List ID → String → Opinions) : Option (List (ID × etaResult)) :=
  match choose nodes k picks with
  | none => none
  | some selectedNodes =>
    match mergeVotes txs (selectedNodes.map (fun nodeID => qn txs nodeID)) with
    | some result => some (calculateEtas result)
    | none => none

/-! ## The round driver and the engine facade -/

/-- Phase 4 of the round: `for tx, eta := range etas { activeTxs[tx] = eta }`. -/
def applyEtas (active etas : List (ID × etaResult)) : List (ID × etaResult) :=
  etas.foldl (fun m p => aupdate m p.1 p.2) active

/-- The environment of a round: the peer snapshot returned by
`GetKnownPeers`, the local PRNG draws used by `choose`, and the `QueryNode`
collaborator. -/
structure Env where
  peers : List String
  picks : ℕ → ℕ
  qn : List ID → String → Opinions

/-- Performs an FPC round.  Source: `func (fpc *Instance) round()
[]TxOpinion`: pop the waiting txs, update opinions, extract the finalized
txs, then query a sample and overwrite the returned etas in the active map.
`none` models a panic inside `querySample`. -/
def round (env : Env) (s : context) : Option (context × List TxOpinion) :=
  let s1 := popTxs s
  let s2 := updateOpinion s1
  let r := getFinalizedTxs s2
  match querySample (getActiveTxs r.1) r.1.parameters.k env.peers env.picks env.qn with
  | none => none
  | some etas => some ({ r.1 with activeTxs := applyEtas r.1.activeTxs etas }, r.2)

/-- Updates the state with the new random and runs a round.  Source:
`func (fpc *Instance) Tick(index uint64, random float64)` (the round body
runs in a goroutine; its finalized batch is the value sent on the channel). -/
def Tick (env : Env) (s : context) (index : ℕ) (random : ℚ) :
    Option (context × List TxOpinion) :=
  round env { s with tick := newTick index random }

/-- A sequence of ticks, each with its own environment snapshot and
`(index, random)` payload; returns the final state and the finalized batch
of every round. -/
def runTicks (ticks : List (Env × ℕ × ℚ)) (s : context) :
    Option (context × List (List TxOpinion)) :=
  match ticks with
  | [] => some (s, [])
  | t :: rest =>
    match Tick t.1 s t.2.1 t.2.2 with
    | none => none
    | some r =>
      match runTicks rest r.1 with
      | none => none
      | some r' => some (r'.1, r.2 :: r'.2)

/-- Returns the current opinions of the given txs.  Source:
`func (fpc *Instance) GetInterimOpinion(txs ...ID) Opinions`: the result
slice starts as the zero value (`false` everywhere) and slot `i` is set to
the last recorded opinion when the history store holds an entry for `txs[i]`. -/
def GetInterimOpinion (s : context) (txs : List ID) : Opinions :=
  txs.map (fun tx =>
    match alookup s.opinionHistory tx with
    | some history => (getLastOpinion history).1
    | none => false)

/-! ## Lemmas about the association-list operations -/

@[simp] theorem alookup_nil {α : Type} (k : ID) : alookup ([] : List (ID × α)) k = none := rfl

theorem alookup_cons {α : Type} (k' : ID) (v : α) (rest : List (ID × α)) (k : ID) :
    alookup ((k', v) :: rest) k = if k' = k then some v else alookup rest k := rfl

theorem alookup_aupdate_self {α : Type} (m : List (ID × α)) (k : ID) (v : α) :
    alookup (aupdate m k v) k = some v := by
  induction m with
  | nil => simp [aupdate, alookup]
  | cons p rest ih =>
    obtain ⟨k', v'⟩ := p
    by_cases h : k' = k <;> simp [aupdate, alookup, h, ih]

theorem alookup_aupdate_other {α : Type} (m : List (ID × α)) (k k' : ID) (v : α)
    (hne : k ≠ k') : alookup (aupdate m k v) k' = alookup m k' := by
  induction m with
  | nil => simp [aupdate, alookup, hne]
  | cons p rest ih =>
    obtain ⟨k0, v0⟩ := p
    by_cases h : k0 = k
    · subst h
      simp [aupdate, alookup, hne]
    · by_cases h' : k0 = k'
      · subst h'
        simp [aupdate, alookup, h]
      · simp [aupdate, alookup, h, h', ih]

theorem alookup_aerase_self {α : Type} (m : List (ID × α)) (k : ID) :
    alookup (aerase m k) k = none := by
  induction m with
  | nil => simp [aerase]
  | cons p rest ih =>
    obtain ⟨k', v'⟩ := p
    by_cases h : k' = k <;> simp [aerase, alookup, h, ih]

theorem alookup_aerase_other {α : Type} (m : List (ID × α)) (k k' : ID)
    (hne : k ≠ k') : alookup (aerase m k) k' = alookup m k' := by
  induction m with
  | nil => simp [aerase]
  | cons p rest ih =>
    obtain ⟨k0, v0⟩ := p
    by_cases h : k0 = k
    · subst h
      simp [aerase, alookup, hne, ih]
    · by_cases h' : k0 = k'
      · subst h'
        simp [aerase, alookup, h]
      · simp [aerase, alookup, h, h', ih]

/-- An association list bound to no pair with key `k` looks up to `none`. -/
theorem alookup_eq_none_of_not_mem_akeys {α : Type} (m : List (ID × α)) (k : ID)
    (h : k ∉ akeys m) : alookup m k = none := by
  induction m with
  | nil => rfl
  | cons p rest ih =>
    obtain ⟨k', v'⟩ := p
    simp only [akeys, List.map_cons, List.mem_cons, not_or] at h
    have h1 : k' ≠ k := fun hh => h.1 hh.symm
    simp [alookup, h1, ih (by simpa [akeys] using h.2)]

theorem not_mem_akeys_of_alookup_eq_none {α : Type} (m : List (ID × α)) (k : ID)
    (h : alookup m k = none) : k ∉ akeys m := by
  induction m with
  | nil => simp [akeys]
  | cons p rest ih =>
    obtain ⟨k', v'⟩ := p
    by_cases hk : k' = k
    · simp [alookup, hk] at h
    · simp only [alookup, hk, if_false] at h
      simp only [akeys, List.map_cons, List.mem_cons, not_or]
      exact ⟨fun hh => hk hh.symm, by simpa [akeys] using ih h⟩

/-! ## Claim C5 — threshold bounds -/

/-- **C5.** For every round with common random `x ∈ [0,1]` and parameters
satisfying `a, b ∈ [0,1]`, `a ≤ b` and `β ∈ [0, 0.5)`, the threshold computed
for any tx (`roundThreshold`, the inline threshold of `updateOpinion`, for
any history length) lies in `[min(a,β), max(b,1−β)]`, which is contained in
`[0,1]`. -/
theorem claim_C5_threshold_bounds (x a b beta : ℚ) (n : ℕ)
    (hx0 : 0 ≤ x) (hx1 : x ≤ 1) (ha0 : 0 ≤ a) (hab : a ≤ b) (hb1 : b ≤ 1)
    (hbeta0 : 0 ≤ beta) (hbeta : beta < 1/2) :
    min a beta ≤ roundThreshold x a b beta n ∧
      roundThreshold x a b beta n ≤ max b (1 - beta) ∧
      0 ≤ min a beta ∧ max b (1 - beta) ≤ 1 := by
  refine ⟨?_, ?_, le_min ha0 hbeta0, max_le hb1 (by linarith)⟩
  · unfold roundThreshold runif
    split
    · exact le_trans (min_le_left a beta) (by nlinarith)
    · exact le_trans (min_le_right a beta) (by nlinarith)
  · unfold roundThreshold runif
    split
    · exact le_trans (by nlinarith) (le_max_left b (1 - beta))
    · exact le_trans (by nlinarith) (le_max_right b (1 - beta))

/-- Witness for C5 at `x = 1/2`, `a = 1/4`, `b = 3/4`, `β = 1/3`, first
decision round. -/
theorem claim_C5_threshold_bounds_witness :
    min (1/4 : ℚ) (1/3) ≤ roundThreshold (1/2) (1/4) (3/4) (1/3) 1 ∧
      roundThreshold (1/2) (1/4) (3/4) (1/3) 1 ≤ max (3/4 : ℚ) (1 - 1/3) ∧
      0 ≤ min (1/4 : ℚ) (1/3) ∧ max (3/4 : ℚ) (1 - 1/3) ≤ 1 :=
  claim_C5_threshold_bounds (1/2) (1/4) (3/4) (1/3) 1 (by norm_num) (by norm_num)
    (by norm_num) (by norm_num) (by norm_num) (by norm_num) (by norm_num)

/-! ## Claim C6 — no clamping of the tick's random value -/

/-- **C6 counterexample.** The claim says a tick value outside `[0,1]` is
clamped into `[0,1]` before use, so that the round's thresholds are still
computed from a value in `[0,1]`.  The code has no clamping: `newTick`
stores the raw value `2` unchanged, the first-round threshold computed from
it (with `a = 0`, `b = 1`) is `2`, and no value in `[0,1]` could have
produced that threshold. -/
theorem claim_C6_counterexample :
    (newTick 0 2).x = 2 ∧
      roundThreshold 2 0 1 (1/4) 1 = 2 ∧
      ¬ (∃ y : ℚ, 0 ≤ y ∧ y ≤ 1 ∧ roundThreshold y 0 1 (1/4) 1 = 2) := by
  refine ⟨rfl, by norm_num [roundThreshold, runif], ?_⟩
  rintro ⟨y, hy0, hy1, hy⟩
  rw [roundThreshold, if_pos rfl, runif] at hy
  nlinarith

/-- **C6 amended.** The engine performs no clamping: the tick's random value
is stored unchanged by `newTick` (and hence used as-is by the round's update
phase), so with `a = 0` and `b = 1` the first-round threshold equals the raw
tick value itself, inside `[0,1]` or not; the engine's state transition is
total, so in particular no tick value in `[0,1]` makes it panic. -/
theorem claim_C6_no_clamping (i : ℕ) (r beta : ℚ) (s : context) :
    (newTick i r).x = r ∧
      ({ s with tick := newTick i r } : context).tick.x = r ∧
      roundThreshold r 0 1 beta 1 = r := by
  refine ⟨rfl, rfl, ?_⟩
  rw [roundThreshold, if_pos rfl, runif]
  ring

/-! ## Claim C2 — the finalization check -/

/-- **C2.** For every opinion history `o` (including its initial opinion at
index 0) and parameters `m ≥ 0`, `l ≥ 1`, the finalization check of
`getFinalizedTxs` — `isFinal` applied to `o` without its initial opinion —
fires if and only if `|o| ≥ m + l + 1` and the last `l` entries of `o` are
pairwise identical; when it fires, the emitted final opinion
(`getLastOpinion o`, whose error slot the caller discards) equals that
constant tail value. -/
theorem claim_C2_finalization_check (o : Opinions) (m l : ℕ) (hl : 1 ≤ l) :
    (isFinal (o.drop 1) m l = true ↔
      (m + l + 1 ≤ o.length ∧
        ∀ x ∈ o.drop (o.length - l), ∀ y ∈ o.drop (o.length - l), x = y)) ∧
    (isFinal (o.drop 1) m l = true →
      ∀ x ∈ o.drop (o.length - l), (getLastOpinion o).1 = x) := by
  by_cases hlen : m + l + 1 ≤ o.length
  case neg =>
    have h1 : (o.drop 1).length < m + l := by
      simp only [List.length_drop]
      omega
    have hfalse : isFinal (o.drop 1) m l = false := by
      unfold isFinal
      rw [if_pos h1]
    rw [hfalse]
    constructor
    · simp only [Bool.false_eq_true, false_iff]
      intro h
      exact hlen h.1
    · intro h
      simp at h
  case pos =>
    have hn1 : 1 ≤ o.length := by omega
    have hld : (o.drop 1).length = o.length - 1 := by simp
    have h1 : ¬ ((o.drop 1).length < m + l) := by omega
    have hidx : (o.drop 1).length - l < (o.drop 1).length := by omega
    have hidx' : o.length - l < o.length := by omega
    have hfp : (o.drop 1).getD ((o.drop 1).length - l) false = o.getD (o.length - l) false := by
      rw [List.getD_eq_getElem _ _ hidx, List.getD_eq_getElem _ _ hidx',
        List.getElem_drop]
      congr 1
      omega
    have hrest : (o.drop 1).drop ((o.drop 1).length - l + 1) = o.drop (o.length - l + 1) := by
      rw [List.drop_drop]
      congr 1
      omega
    have htail : o.drop (o.length - l) =
        o.getD (o.length - l) false :: o.drop (o.length - l + 1) := by
      rw [List.getD_eq_getElem _ _ hidx']
      exact List.drop_eq_getElem_cons hidx'
    have hfin : isFinal (o.drop 1) m l =
        (o.drop (o.length - l + 1)).all
          (fun opinion => opinion == o.getD (o.length - l) false) := by
      unfold isFinal
      rw [if_neg h1, hfp, hrest]
    have hiff : isFinal (o.drop 1) m l = true ↔
        ∀ x ∈ o.drop (o.length - l + 1), x = o.getD (o.length - l) false := by
      rw [hfin, List.all_eq_true]
      simp
    have hpair : (∀ x ∈ o.drop (o.length - l + 1), x = o.getD (o.length - l) false) ↔
        (∀ x ∈ o.drop (o.length - l), ∀ y ∈ o.drop (o.length - l), x = y) := by
      rw [htail]
      constructor
      · intro h x hx y hy
        have hx' : x = o.getD (o.length - l) false := by
          rcases List.mem_cons.mp hx with h' | h'
          · exact h'
          · exact h x h'
        have hy' : y = o.getD (o.length - l) false := by
          rcases List.mem_cons.mp hy with h' | h'
          · exact h'
          · exact h y h'
        rw [hx', hy']
      · intro h x hx
        exact h x (List.mem_cons_of_mem _ hx) _ (List.mem_cons_self _ _)
    constructor
    · rw [hiff, hpair]
      exact ⟨fun h => ⟨hlen, h⟩, fun h => h.2⟩
    · intro hfired x hx
      have hpw := (hpair.mp (hiff.mp hfired))
      have hlast : (getLastOpinion o).1 = o.getD (o.length - 1) false := by
        unfold getLastOpinion
        rw [if_pos (by omega)]
        simp only
        rw [List.getLastD_eq_getLast?, List.getLast?_eq_getElem?,
          List.getElem?_eq_getElem (by omega : o.length - 1 < o.length),
          List.getD_eq_getElem _ _ (by omega : o.length - 1 < o.length)]
        rfl
      have hmem : o.getD (o.length - 1) false ∈ o.drop (o.length - l) := by
        have hb : l - 1 < (o.drop (o.length - l)).length := by
          simp only [List.length_drop]
          omega
        have hel : (o.drop (o.length - l))[l-1] = o.getD (o.length - 1) false := by
          rw [List.getElem_drop, List.getD_eq_getElem _ _ (by omega : o.length - 1 < o.length)]
          congr 1
          omega
        rw [← hel]
        exact List.getElem_mem hb
      rw [hlast]
      exact hpw _ hmem x hx

/-- Witness for C2 at the concrete history `[Like, Like, Like, Like]`,
`m = 0`, `l = 2`: the check fires and the reported final opinion is `Like`. -/
theorem claim_C2_finalization_check_witness :
    ((isFinal (([true, true, true, true] : Opinions).drop 1) 0 2 = true ↔
        (0 + 2 + 1 ≤ ([true, true, true, true] : Opinions).length ∧
          ∀ x ∈ ([true, true, true, true] : Opinions).drop
              (([true, true, true, true] : Opinions).length - 2),
            ∀ y ∈ ([true, true, true, true] : Opinions).drop
                (([true, true, true, true] : Opinions).length - 2), x = y)) ∧
      (isFinal (([true, true, true, true] : Opinions).drop 1) 0 2 = true →
        ∀ x ∈ ([true, true, true, true] : Opinions).drop
            (([true, true, true, true] : Opinions).length - 2),
          (getLastOpinion ([true, true, true, true] : Opinions)).1 = x)) :=
  claim_C2_finalization_check [true, true, true, true] 0 2 (by decide)

/-! ## Claim C7 — `GetInterimOpinion` -/

/-- **C7 counterexample.** The claim says a tx with no history gets no
reported opinion ("absent").  The result of `GetInterimOpinion` is a plain
list of opinions: for a tx with no history the pre-filled zero value
`Dislike` is reported at its position — one entry long, identical to the
result for a tx whose genuine last opinion is `Dislike`, so the claim's
"absent" outcome does not exist in the code. -/
theorem claim_C7_counterexample :
    GetInterimOpinion ⟨[], [], [], ⟨1, 0, 1, 1/4, 0, 1⟩, ⟨0, 0⟩⟩ ["a"] = [Dislike] ∧
      (GetInterimOpinion ⟨[], [], [], ⟨1, 0, 1, 1/4, 0, 1⟩, ⟨0, 0⟩⟩ ["a"]).length = 1 ∧
      GetInterimOpinion ⟨[], [], [("b", [false])], ⟨1, 0, 1, 1/4, 0, 1⟩, ⟨0, 0⟩⟩ ["b"] =
        GetInterimOpinion ⟨[], [], [], ⟨1, 0, 1, 1/4, 0, 1⟩, ⟨0, 0⟩⟩ ["a"] := by
  refine ⟨rfl, rfl, rfl⟩

/-- **C7 amended.** For every tx id passed to `GetInterimOpinion`: if the tx
has a non-empty history in the store, the result at its position equals the
last entry of that history; if the tx has no history, the result at its
position is `Dislike` (`false`, the zero value of the result slice), not an
absent marker. -/
theorem claim_C7_interim_opinion (s : context) (txs : List ID) (i : ℕ)
    (hi : i < txs.length) :
    (∀ hist, alookup s.opinionHistory (txs.getD i "") = some hist → hist ≠ [] →
        (GetInterimOpinion s txs).getD i false = hist.getLastD false) ∧
    (alookup s.opinionHistory (txs.getD i "") = none →
        (GetInterimOpinion s txs).getD i false = Dislike) := by
  have hmap : (GetInterimOpinion s txs).getD i false =
      (match alookup s.opinionHistory (txs.getD i "") with
       | some history => (getLastOpinion history).1
       | none => false) := by
    unfold GetInterimOpinion
    rw [List.getD_eq_getElem _ _ (by simpa using hi), List.getElem_map,
      List.getD_eq_getElem _ _ hi]
  constructor
  · intro hist hsome hne
    rw [hmap, hsome]
    show (getLastOpinion hist).1 = hist.getLastD false
    unfold getLastOpinion
    rw [if_pos (List.length_pos.mpr hne)]
  · intro hnone
    rw [hmap, hnone]
    rfl

/-- Witness for C7 at a concrete store holding history `[Dislike, Like]` for
tx `"b"`. -/
theorem claim_C7_interim_opinion_witness :
    (∀ hist,
        alookup (⟨[], [], [("b", [false, true])], ⟨1, 0, 1, 1/4, 0, 1⟩, ⟨0, 0⟩⟩ :
          context).opinionHistory (["b"].getD 0 "") = some hist → hist ≠ [] →
        (GetInterimOpinion ⟨[], [], [("b", [false, true])], ⟨1, 0, 1, 1/4, 0, 1⟩, ⟨0, 0⟩⟩
          ["b"]).getD 0 false = hist.getLastD false) ∧
    (alookup (⟨[], [], [("b", [false, true])], ⟨1, 0, 1, 1/4, 0, 1⟩, ⟨0, 0⟩⟩ :
          context).opinionHistory (["b"].getD 0 "") = none →
        (GetInterimOpinion ⟨[], [], [("b", [false, true])], ⟨1, 0, 1, 1/4, 0, 1⟩, ⟨0, 0⟩⟩
          ["b"]).getD 0 false = Dislike) :=
  claim_C7_interim_opinion ⟨[], [], [("b", [false, true])], ⟨1, 0, 1, 1/4, 0, 1⟩, ⟨0, 0⟩⟩
    ["b"] 0 (by decide)

/-! ## Claim C8 — eta aggregation -/

/-- Looking up after `calculateEtas`' counting fold: the entry of `tx` holds
its accumulated positive-vote total and vote count. -/
theorem calcFold_alookup (votes : List TxOpinion) (acc : List (ID × etaResult)) (tx : ID) :
    alookup (votes.foldl calcStep acc) tx =
      (match alookup acc tx with
       | some er =>
         some (⟨er.value + (posCount votes tx : ℚ), er.count + voteCount votes tx⟩ : etaResult)
       | none =>
         if voteCount votes tx = 0 then none
         else some ⟨(posCount votes tx : ℚ), voteCount votes tx⟩) := by
  induction votes generalizing acc with
  | nil =>
    simp only [List.foldl_nil, posCount, voteCount, List.filter_nil, List.length_nil]
    rcases h : alookup acc tx with _ | er
    · simp
    · simp
  | cons vote rest ih =>
    rw [List.foldl_cons, ih]
    by_cases hv : vote.txHash = tx
    case pos =>
      have hvb : (vote.txHash == tx) = true := by simp [hv]
      have hcnt : voteCount (vote :: rest) tx = voteCount rest tx + 1 := by
        simp only [voteCount, List.filter_cons, hvb, if_true, List.length_cons]
      by_cases ho : vote.opinion
      case pos =>
        have hpos : posCount (vote :: rest) tx = posCount rest tx + 1 := by
          simp only [posCount, List.filter_cons, hvb, ho, Bool.and_self, if_true,
            List.length_cons]
        have hstep : alookup (calcStep acc vote) tx =
            some (match alookup acc tx with
                  | some er => (⟨er.value + 1, er.count + 1⟩ : etaResult)
                  | none => ⟨1, 1⟩) := by
          unfold calcStep
          rw [hv]
          rcases h : alookup acc tx with _ | er
          · simp [h, ho, alookup_aupdate_self]
          · simp [h, ho, alookup_aupdate_self]
        rw [hstep, hcnt, hpos]
        rcases h : alookup acc tx with _ | er
        · dsimp only
          rw [if_neg (by omega)]
          rw [Option.some.injEq, etaResult.mk.injEq]
          exact ⟨by push_cast; ring, by omega⟩
        · dsimp only
          rw [Option.some.injEq, etaResult.mk.injEq]
          exact ⟨by push_cast; ring, by omega⟩
      case neg =>
        have hob : vote.opinion = false := by
          cases hvo : vote.opinion
          · rfl
          · exact absurd hvo ho
        have hpos : posCount (vote :: rest) tx = posCount rest tx := by
          simp [posCount, List.filter_cons, hvb, hob]
        have hstep : alookup (calcStep acc vote) tx =
            some (match alookup acc tx with
                  | some er => (⟨er.value, er.count + 1⟩ : etaResult)
                  | none => ⟨0, 1⟩) := by
          unfold calcStep
          rw [hv]
          rcases h : alookup acc tx with _ | er
          · simp [h, hob, alookup_aupdate_self]
          · simp [h, hob, alookup_aupdate_self]
        rw [hstep, hcnt, hpos]
        rcases h : alookup acc tx with _ | er
        · dsimp only
          rw [if_neg (by omega)]
          rw [Option.some.injEq, etaResult.mk.injEq]
          exact ⟨by ring, by omega⟩
        · dsimp only
          rw [Option.some.injEq, etaResult.mk.injEq]
          exact ⟨by ring, by omega⟩
    case neg =>
      have hvb : (vote.txHash == tx) = false := by simp [hv]
      have hcnt : voteCount (vote :: rest) tx = voteCount rest tx := by
        simp [voteCount, List.filter_cons, hvb]
      have hpos : posCount (vote :: rest) tx = posCount rest tx := by
        simp [posCount, List.filter_cons, hvb]
      have hstep : alookup (calcStep acc vote) tx = alookup acc tx := by
        unfold calcStep
        exact alookup_aupdate_other _ _ _ _ hv
      rw [hstep, hcnt, hpos]

/-- Looking up after `calculateEtas`' final divide pass. -/
theorem alookup_divide (m : List (ID × etaResult)) (tx : ID) :
    alookup (m.map (fun p => (p.1, { p.2 with value := p.2.value / (p.2.count : ℚ) }))) tx =
      (alookup m tx).map (fun er => { er with value := er.value / (er.count : ℚ) }) := by
  induction m with
  | nil => rfl
  | cons p rest ih =>
    obtain ⟨k, v⟩ := p
    by_cases h : k = tx <;> simp [alookup, h, ih]

/-- **C8.** For every list of collected votes, the eta aggregation
(`calculateEtas`) produces, for each tx that received at least one vote,
`value = (number of positive votes for that tx) / count` with
`count = (number of votes received for that tx)`; every tx that received no
vote is absent from the resulting eta map; and the result is independent of
the order of the votes. -/
theorem claim_C8_eta_aggregation (votes : List TxOpinion) (tx : ID) :
    (alookup (calculateEtas votes) tx =
      if voteCount votes tx = 0 then none
      else some ⟨(posCount votes tx : ℚ) / (voteCount votes tx : ℚ), voteCount votes tx⟩) ∧
    (∀ votes', votes.Perm votes' →
      alookup (calculateEtas votes) tx = alookup (calculateEtas votes') tx) := by
  have hchar : ∀ (vs : List TxOpinion),
      alookup (calculateEtas vs) tx =
        if voteCount vs tx = 0 then none
        else some ⟨(posCount vs tx : ℚ) / (voteCount vs tx : ℚ), voteCount vs tx⟩ := by
    intro vs
    unfold calculateEtas
    rw [alookup_divide, calcFold_alookup]
    simp only [alookup_nil]
    by_cases h0 : voteCount vs tx = 0
    · rw [if_pos h0, if_pos h0]
      rfl
    · rw [if_neg h0, if_neg h0]
      rfl
  refine ⟨hchar votes, ?_⟩
  intro votes' hp
  rw [hchar votes, hchar votes']
  have hc : voteCount votes tx = voteCount votes' tx := (hp.filter _).length_eq
  have hq : posCount votes tx = posCount votes' tx := (hp.filter _).length_eq
  rw [hc, hq]

/-- Witness for C8 on the concrete vote list `[(a,Like), (a,Dislike),
(b,Like)]` and a reordering of it: tx `a` gets eta `1/2` with count `2`,
unchanged under the reordering. -/
theorem claim_C8_eta_aggregation_witness :
    alookup (calculateEtas [⟨"a", true⟩, ⟨"a", false⟩, ⟨"b", true⟩]) "a" = some ⟨1/2, 2⟩ ∧
      alookup (calculateEtas [⟨"b", true⟩, ⟨"a", false⟩, ⟨"a", true⟩]) "a" =
        alookup (calculateEtas [⟨"a", true⟩, ⟨"a", false⟩, ⟨"b", true⟩]) "a" := by
  constructor
  · rw [(claim_C8_eta_aggregation [⟨"a", true⟩, ⟨"a", false⟩, ⟨"b", true⟩] "a").1]
    have hv : voteCount [⟨"a", true⟩, ⟨"a", false⟩, ⟨"b", true⟩] "a" = 2 := rfl
    have hp : posCount [⟨"a", true⟩, ⟨"a", false⟩, ⟨"b", true⟩] "a" = 1 := rfl
    rw [hv, hp]
    norm_num
  · exact ((claim_C8_eta_aggregation [⟨"a", true⟩, ⟨"a", false⟩, ⟨"b", true⟩] "a").2
      [⟨"b", true⟩, ⟨"a", false⟩, ⟨"a", true⟩] (by decide)).symm

/-! ## Claim C9 — frame effect of the query phase -/

/-- A tx absent from the eta map written back in phase 4 keeps its previous
entry in the active map. -/
theorem applyEtas_absent (etas active : List (ID × etaResult)) (tx : ID)
    (h : alookup etas tx = none) :
    alookup (applyEtas active etas) tx = alookup active tx := by
  induction etas generalizing active with
  | nil => rfl
  | cons p rest ih =>
    obtain ⟨k, v⟩ := p
    have hk : k ≠ tx := by
      intro hh
      simp [alookup, hh] at h
    have hrest : alookup rest tx = none := by
      simpa [alookup, hk] using h
    show alookup (applyEtas (aupdate active k v) rest) tx = alookup active tx
    rw [ih (aupdate active k v) hrest, alookup_aupdate_other _ _ _ _ hk]

/-- A tx present in the (duplicate-free) eta map gets exactly its new eta in
the active map. -/
theorem applyEtas_present (etas active : List (ID × etaResult)) (tx : ID) (er : etaResult)
    (hnd : (akeys etas).Nodup) (h : alookup etas tx = some er) :
    alookup (applyEtas active etas) tx = some er := by
  induction etas generalizing active with
  | nil => simp [alookup] at h
  | cons p rest ih =>
    obtain ⟨k, v⟩ := p
    have hnd2 := hnd
    simp only [akeys, List.map_cons, List.nodup_cons] at hnd2
    by_cases hk : k = tx
    · subst hk
      have hv : v = er := by
        simpa [alookup] using h
      subst hv
      have hrest : alookup rest k = none :=
        alookup_eq_none_of_not_mem_akeys _ _ (by simpa [akeys] using hnd2.1)
      show alookup (applyEtas (aupdate active k v) rest) k = some v
      rw [applyEtas_absent _ _ _ hrest, alookup_aupdate_self]
    · have hrest : alookup rest tx = some er := by
        simpa [alookup, hk] using h
      show alookup (applyEtas (aupdate active k v) rest) tx = some er
      exact ih (aupdate active k v) (by simpa [akeys] using hnd2.2) hrest

/-- **C9.** In the query phase of every round (`applyEtas`, the write-back
loop of `round`), only the txs present in the eta map returned by the
sampler have their `etaResult` in the active map overwritten; every tx
absent from the returned map keeps exactly its previous `etaResult`. -/
theorem claim_C9_query_phase_frame (active etas : List (ID × etaResult)) (tx : ID) :
    (alookup etas tx = none → alookup (applyEtas active etas) tx = alookup active tx) ∧
    ((akeys etas).Nodup → ∀ er, alookup etas tx = some er →
      alookup (applyEtas active etas) tx = some er) :=
  ⟨fun h => applyEtas_absent etas active tx h,
   fun hnd er h => applyEtas_present etas active tx er hnd h⟩

/-- Witness for C9: active map holding txs `t` and `u`, eta map only
updating `t`; `u` keeps its old entry, `t` gets the new one. -/
theorem claim_C9_query_phase_frame_witness :
    (alookup [("t", (⟨1, 2⟩ : etaResult))] "u" = none →
      alookup (applyEtas [("t", ⟨-1, 0⟩), ("u", ⟨1, 1⟩)] [("t", ⟨1, 2⟩)]) "u" =
        alookup [("t", (⟨-1, 0⟩ : etaResult)), ("u", ⟨1, 1⟩)] "u") ∧
    ((akeys [("t", (⟨1, 2⟩ : etaResult))]).Nodup → ∀ er,
      alookup [("t", (⟨1, 2⟩ : etaResult))] "t" = some er →
      alookup (applyEtas [("t", ⟨-1, 0⟩), ("u", ⟨1, 1⟩)] [("t", ⟨1, 2⟩)]) "t" = some er) :=
  claim_C9_query_phase_frame [("t", ⟨-1, 0⟩), ("u", ⟨1, 1⟩)] [("t", ⟨1, 2⟩)] "u"
    |>.1 |> fun h1 =>
      ⟨fun _ => h1 rfl,
       (claim_C9_query_phase_frame [("t", ⟨-1, 0⟩), ("u", ⟨1, 1⟩)] [("t", ⟨1, 2⟩)] "t").2⟩

/-! ## Claim C10 — the sampler's attribution precondition -/

/-- The positional attribution loop succeeds exactly when the remaining
votes fit inside the queried tx list. -/
theorem addVotes_isSome (txs : List ID) (votes : Opinions) (idx : ℕ) (acc : List TxOpinion) :
    (addVotes txs votes idx acc).isSome ↔ (votes = [] ∨ idx + votes.length ≤ txs.length) := by
  induction votes generalizing idx acc with
  | nil => simp [addVotes]
  | cons vote rest ih =>
    simp only [addVotes]
    cases hg : txs[idx]? with
    | some tx =>
      have hidx : idx < txs.length := by
        by_contra hc
        rw [List.getElem?_eq_none (by omega)] at hg
        exact Option.noConfusion hg
      dsimp only
      rw [ih (idx + 1) (acc ++ [TxOpinion.mk tx vote])]
      simp only [List.length_cons]
      constructor
      · rintro (h | h)
        · subst h
          right
          simpa using hidx
        · right
          omega
      · rintro (h | h)
        · exact absurd h (List.cons_ne_nil _ _)
        · by_cases hr : rest = []
          · exact Or.inl hr
          · right
            omega
    | none =>
      have hidx : txs.length ≤ idx := by
        by_contra hc
        rw [List.getElem?_eq_getElem (by omega)] at hg
        exact Option.noConfusion hg
      simp only [Option.isSome_none, Bool.false_eq_true, false_iff, not_or]
      refine ⟨List.cons_ne_nil _ _, ?_⟩
      simp only [List.length_cons]
      omega

/-- A panic earlier in the merge loop aborts the whole merge. -/
theorem mergeFold_none (txs : List ID) (responses : List Opinions) :
    responses.foldl (mergeStep txs) none = none := by
  induction responses with
  | nil => rfl
  | cons votes rest ih => exact ih

/-- The merge of the `k` responses succeeds exactly when no response is
longer than the queried tx list. -/
theorem mergeVotes_isSome (txs : List ID) (responses : List Opinions) :
    (mergeVotes txs responses).isSome ↔ ∀ r ∈ responses, r.length ≤ txs.length := by
  suffices h : ∀ (rs : List Opinions) (acc : List TxOpinion),
      ((rs.foldl (mergeStep txs) (some acc)).isSome ↔ ∀ r ∈ rs, r.length ≤ txs.length) by
    exact h responses []
  intro rs
  induction rs with
  | nil => simp
  | cons votes rest ih =>
    intro acc
    rw [List.foldl_cons]
    have hstep : mergeStep txs (some acc) votes =
        if 0 < votes.length then addVotes txs votes 0 acc else some acc := rfl
    rw [hstep]
    by_cases hv : 0 < votes.length
    case pos =>
      rw [if_pos hv]
      cases ha : addVotes txs votes 0 acc with
      | some result =>
        rw [ih result]
        have hlen : votes.length ≤ txs.length := by
          have hs := (addVotes_isSome txs votes 0 acc).mp (by rw [ha]; rfl)
          rcases hs with h | h
          · subst h
            simp
          · simpa using h
        constructor
        · intro hr r hmem
          rcases List.mem_cons.mp hmem with rfl | hm
          · exact hlen
          · exact hr r hm
        · intro hall r hm
          exact hall r (List.mem_cons_of_mem _ hm)
      | none =>
        rw [mergeFold_none]
        simp only [Option.isSome_none, Bool.false_eq_true, false_iff]
        intro hall
        have hns : ¬ ((addVotes txs votes 0 acc).isSome = true) := by
          rw [ha]
          simp
        rw [addVotes_isSome] at hns
        push_neg at hns
        have h2 := hns.2
        have h3 := hall votes (List.mem_cons_self _ _)
        omega
    case neg =>
      rw [if_neg hv]
      rw [ih acc]
      constructor
      · intro hr r hmem
        rcases List.mem_cons.mp hmem with rfl | hm
        · omega
        · exact hr r hm
      · intro hall r hm
        exact hall r (List.mem_cons_of_mem _ hm)

/-- **C10.** `querySample` is total only under the precondition that every
query response is either empty or no longer than the queried tx list: the
merge loop succeeds if and only if every response is empty or fits inside
`txs` (so under the precondition the out-of-range attribution `txs[voteIdx]`
is unreachable), and with a non-empty node list and responses satisfying the
precondition the whole of `querySample` succeeds. -/
theorem claim_C10_querySample_precondition (txs : List ID) (responses : List Opinions)
    (k : ℕ) (nodes : List String) (picks : ℕ → ℕ) (qn : List ID → String → Opinions) :
    ((mergeVotes txs responses).isSome ↔
      ∀ r ∈ responses, r.length = 0 ∨ r.length ≤ txs.length) ∧
    (nodes ≠ [] → (∀ node, (qn txs node).length ≤ txs.length) →
      (querySample txs k nodes picks qn).isSome) := by
  constructor
  · rw [mergeVotes_isSome]
    constructor
    · intro h r hm
      exact Or.inr (h r hm)
    · intro h r hm
      rcases h r hm with h0 | h0
      · omega
      · exact h0
  · intro hne hq
    unfold querySample
    have hchoose : choose nodes k picks =
        some ((List.range k).map (fun i => nodes.getD (picks i % nodes.length) "")) := by
      unfold choose
      rw [if_neg (fun h => hne (List.length_eq_zero.mp h.1))]
    rw [hchoose]
    dsimp only
    have hm : (mergeVotes txs
        (((List.range k).map (fun i => nodes.getD (picks i % nodes.length) "")).map
          (fun nodeID => qn txs nodeID))).isSome := by
      rw [mergeVotes_isSome]
      intro r hr
      rw [List.mem_map] at hr
      obtain ⟨node, _, rfl⟩ := hr
      exact hq node
    obtain ⟨result, hres⟩ := Option.isSome_iff_exists.mp hm
    rw [hres]
    rfl

/-- Witness for C10: two queried txs, responses of lengths 1, 0 and 2 all
merge; a one-node peer list with fitting responses makes `querySample`
succeed. -/
theorem claim_C10_querySample_precondition_witness :
    ((mergeVotes ["a", "b"] [[true], [], [false, true]]).isSome ↔
      ∀ r ∈ [[true], [], [false, true]],
        r.length = 0 ∨ r.length ≤ (["a", "b"] : List ID).length) ∧
      (querySample ["a", "b"] 2 ["n"] (fun i => i) (fun _ts _n => [true])).isSome :=
  ⟨(claim_C10_querySample_precondition ["a", "b"] [[true], [], [false, true]] 2 ["n"]
      (fun i => i) (fun _ts _n => [true])).1,
   (claim_C10_querySample_precondition ["a", "b"] [[true], [], [false, true]] 2 ["n"]
      (fun i => i) (fun _ts _n => [true])).2 (List.cons_ne_nil _ _) (fun n => by decide)⟩

/-! ## Claim C1 — a round with an empty peer set panics -/

/-- **C1 (refuting theorem).** The claim says an empty peer set makes
`querySample` return an empty eta map and the round complete without
failure.  In the code, `choose` calls `rand.Intn(len(list))` with
`len(list) = 0`, which panics (modelled as `none`), so `querySample` — and
with it the whole round, here run on an engine whose parameters have the
spec-mandated positive fanout `k = 1` — aborts instead of producing an
empty map. -/
theorem claim_C1_empty_peer_set_panics :
    choose [] 1 (fun i => i) = none ∧
      querySample ["t"] 1 [] (fun i => i) (fun _ts _n => []) = none ∧
      round ⟨[], fun i => i, fun _ts _n => []⟩
        ⟨[], [("t", ⟨-1, 0⟩)], [("t", [true])], ⟨1, 0, 1, 1/4, 2, 3⟩, ⟨0, 0⟩⟩ = none :=
  ⟨rfl, rfl, rfl⟩

/-! ## Claim C3 — the update phase -/

/-- `updateOpinion`'s loop body leaves every other tx's history alone. -/
theorem updStep_other (p : Parameters) (x : ℚ) (histories : List (ID × Opinions))
    (entry : ID × etaResult) (tx : ID) (h : entry.1 ≠ tx) :
    alookup (updStep p x histories entry) tx = alookup histories tx := by
  unfold updStep
  cases alookup histories entry.1 with
  | none => rfl
  | some history =>
    dsimp only
    split
    · exact alookup_aupdate_other _ _ _ _ h
    · rfl

/-- `updateOpinion`'s loop leaves the history of a tx outside the active map
alone. -/
theorem updFold_preserve (p : Parameters) (x : ℚ) (acts : List (ID × etaResult))
    (histories : List (ID × Opinions)) (tx : ID) (h : tx ∉ akeys acts) :
    alookup (acts.foldl (updStep p x) histories) tx = alookup histories tx := by
  induction acts generalizing histories with
  | nil => rfl
  | cons entry rest ih =>
    simp only [akeys, List.map_cons, List.mem_cons, not_or] at h
    rw [List.foldl_cons]
    rw [ih (updStep p x histories entry) h.2]
    exact updStep_other p x histories entry tx (fun hh => h.1 hh.symm)

/-- `updateOpinion`'s loop updates the history of an active tx exactly once. -/
theorem updFold_lookup (p : Parameters) (x : ℚ) (acts : List (ID × etaResult))
    (histories : List (ID × Opinions)) (tx : ID) (eta : etaResult) (hist : Opinions)
    (hnd : (akeys acts).Nodup) (ha : alookup acts tx = some eta)
    (hh : alookup histories tx = some hist) :
    alookup (acts.foldl (updStep p x) histories) tx =
      some (if eta.value ≠ -1
        then hist ++ [decide (eta.value > roundThreshold x p.a p.b p.beta hist.length)]
        else hist) := by
  induction acts generalizing histories with
  | nil => simp [alookup] at ha
  | cons entry rest ih =>
    obtain ⟨k, e⟩ := entry
    have hnd2 := hnd
    simp only [akeys, List.map_cons, List.nodup_cons] at hnd2
    rw [List.foldl_cons]
    by_cases hk : k = tx
    · subst hk
      have he : e = eta := by
        simpa [alookup] using ha
      subst he
      have hstep : alookup (updStep p x histories (k, e)) k =
          some (if e.value ≠ -1
            then hist ++ [decide (e.value > roundThreshold x p.a p.b p.beta hist.length)]
            else hist) := by
        unfold updStep
        dsimp only
        rw [hh]
        dsimp only
        split
        · exact alookup_aupdate_self _ _ _
        · exact hh
      rw [updFold_preserve p x rest _ k (by simpa [akeys] using hnd2.1)]
      exact hstep
    · have ha2 : alookup rest tx = some eta := by
        simpa [alookup, hk] using ha
      have hh2 : alookup (updStep p x histories (k, e)) tx = some hist := by
        rw [updStep_other p x histories (k, e) tx hk]
        exact hh
      exact ih (updStep p x histories (k, e)) hnd2.2 ha2 hh2

/-- **C3.** In the update phase of a round with common random `x`, every tx
in the active map whose stored eta has `value ≠ -1` (and a recorded history)
has exactly one opinion equal to `eta.value > τ` appended to its history
(strict inequality, so `eta.value = τ` yields Dislike), where
`τ = a + x·(b − a)` when the history has length 1 and `τ = β + x·(1 − 2β)`
otherwise; every tx with `value = -1` has its history left unchanged. -/
theorem claim_C3_update_appends (s : context) (tx : ID) (eta : etaResult) (hist : Opinions)
    (hnd : (akeys s.activeTxs).Nodup)
    (ha : alookup s.activeTxs tx = some eta)
    (hh : alookup s.opinionHistory tx = some hist) :
    alookup (updateOpinion s).opinionHistory tx =
      some (if eta.value = -1 then hist
        else hist ++ [decide (eta.value >
          (if hist.length = 1
           then s.parameters.a + s.tick.x * (s.parameters.b - s.parameters.a)
           else s.parameters.beta + s.tick.x * (1 - 2 * s.parameters.beta)))]) := by
  have h := updFold_lookup s.parameters s.tick.x s.activeTxs s.opinionHistory tx eta hist
    hnd ha hh
  unfold updateOpinion
  dsimp only
  rw [h]
  by_cases hv : eta.value = -1
  · rw [if_neg (fun hc : eta.value ≠ -1 => hc hv), if_pos hv]
  · rw [if_pos hv, if_neg hv]
    have ht : roundThreshold s.tick.x s.parameters.a s.parameters.b s.parameters.beta
        hist.length =
        (if hist.length = 1
         then s.parameters.a + s.tick.x * (s.parameters.b - s.parameters.a)
         else s.parameters.beta + s.tick.x * (1 - 2 * s.parameters.beta)) := by
      unfold roundThreshold runif
      split
      · ring
      · ring
    rw [ht]

/-- Witness for C3 on a two-tx state: `t` has eta value `1 ≠ -1` and gets an
opinion appended; `u` has the `-1` sentinel and keeps its history. -/
theorem claim_C3_update_appends_witness :
    (alookup (updateOpinion ⟨[], [("t", ⟨1, 1⟩), ("u", ⟨-1, 0⟩)],
        [("t", [true]), ("u", [false])], ⟨1, 0, 1, 1/4, 0, 1⟩, ⟨0, 1/2⟩⟩).opinionHistory "t" =
      some (if (1 : ℚ) = -1 then [true]
        else [true] ++ [decide ((1 : ℚ) >
          (if ([true] : Opinions).length = 1
           then (0 : ℚ) + 1/2 * (1 - 0)
           else (1/4 : ℚ) + 1/2 * (1 - 2 * (1/4))))])) ∧
    (alookup (updateOpinion ⟨[], [("t", ⟨1, 1⟩), ("u", ⟨-1, 0⟩)],
        [("t", [true]), ("u", [false])], ⟨1, 0, 1, 1/4, 0, 1⟩, ⟨0, 1/2⟩⟩).opinionHistory "u" =
      some (if (-1 : ℚ) = -1 then [false]
        else [false] ++ [decide ((-1 : ℚ) >
          (if ([false] : Opinions).length = 1
           then (0 : ℚ) + 1/2 * (1 - 0)
           else (1/4 : ℚ) + 1/2 * (1 - 2 * (1/4))))])) :=
  ⟨claim_C3_update_appends ⟨[], [("t", ⟨1, 1⟩), ("u", ⟨-1, 0⟩)],
      [("t", [true]), ("u", [false])], ⟨1, 0, 1, 1/4, 0, 1⟩, ⟨0, 1/2⟩⟩ "t" ⟨1, 1⟩ [true]
      (by simp [akeys]) rfl rfl,
   claim_C3_update_appends ⟨[], [("t", ⟨1, 1⟩), ("u", ⟨-1, 0⟩)],
      [("t", [true]), ("u", [false])], ⟨1, 0, 1, 1/4, 0, 1⟩, ⟨0, 1/2⟩⟩ "u" ⟨-1, 0⟩ [false]
      (by simp [akeys]) rfl rfl⟩

/-! ## Claim C4 — finalization retires a tx for good -/

/-- Unfolding equation for `finStep`. -/
theorem finStep_eq (m l : ℕ)
    (acc : (List (ID × etaResult) × List (ID × Opinions)) × List TxOpinion) (k : ID) :
    finStep m l acc k =
      if isFinal (((alookup acc.1.2 k).getD []).drop 1) m l then
        ((aerase acc.1.1 k, aerase acc.1.2 k),
          acc.2 ++ [⟨k, (getLastOpinion ((alookup acc.1.2 k).getD [])).1⟩])
      else acc := rfl

theorem alookup_aerase_none {α : Type} (m : List (ID × α)) (k tx : ID)
    (h : alookup m tx = none) : alookup (aerase m k) tx = none := by
  by_cases hk : k = tx
  · subst hk
    exact alookup_aerase_self m k
  · rw [alookup_aerase_other m k tx hk]
    exact h

/-- The finalize loop's body never (re-)adds a tx to either map. -/
theorem finStep_none (m l : ℕ)
    (acc : (List (ID × etaResult) × List (ID × Opinions)) × List TxOpinion) (k tx : ID)
    (h1 : alookup acc.1.1 tx = none) (h2 : alookup acc.1.2 tx = none) :
    alookup (finStep m l acc k).1.1 tx = none ∧ alookup (finStep m l acc k).1.2 tx = none := by
  rw [finStep_eq]
  split
  · exact ⟨alookup_aerase_none _ _ _ h1, alookup_aerase_none _ _ _ h2⟩
  · exact ⟨h1, h2⟩

/-- The finalize loop never (re-)adds a tx to either map. -/
theorem finFold_none (m l : ℕ) (ks : List ID)
    (acc : (List (ID × etaResult) × List (ID × Opinions)) × List TxOpinion) (tx : ID)
    (h1 : alookup acc.1.1 tx = none) (h2 : alookup acc.1.2 tx = none) :
    alookup (ks.foldl (finStep m l) acc).1.1 tx = none ∧
      alookup (ks.foldl (finStep m l) acc).1.2 tx = none := by
  induction ks generalizing acc with
  | nil => exact ⟨h1, h2⟩
  | cons k rest ih =>
    rw [List.foldl_cons]
    obtain ⟨g1, g2⟩ := finStep_none m l acc k tx h1 h2
    exact ih (finStep m l acc k) g1 g2

/-- A tx in the finalized batch was erased from both maps by the loop. -/
theorem finFold_mem_batch (m l : ℕ) (ks : List ID)
    (acc : (List (ID × etaResult) × List (ID × Opinions)) × List TxOpinion) (tx : ID)
    (h : tx ∈ (ks.foldl (finStep m l) acc).2.map TxOpinion.txHash) :
    tx ∈ acc.2.map TxOpinion.txHash ∨
      (alookup (ks.foldl (finStep m l) acc).1.1 tx = none ∧
        alookup (ks.foldl (finStep m l) acc).1.2 tx = none) := by
  induction ks generalizing acc with
  | nil => exact Or.inl h
  | cons k rest ih =>
    rw [List.foldl_cons] at h ⊢
    rcases ih (finStep m l acc k) h with hmem | hnone
    · rw [finStep_eq] at hmem
      by_cases hfin : isFinal (((alookup acc.1.2 k).getD []).drop 1) m l
      · rw [if_pos hfin] at hmem
        simp only [List.map_append, List.mem_append, List.map_cons, List.map_nil,
          List.mem_cons, List.not_mem_nil, or_false] at hmem
        rcases hmem with hmem | hk
        · exact Or.inl hmem
        · subst hk
          right
          have gstep : finStep m l acc tx =
              ((aerase acc.1.1 tx, aerase acc.1.2 tx),
                acc.2 ++ [⟨tx, (getLastOpinion ((alookup acc.1.2 tx).getD [])).1⟩]) := by
            rw [finStep_eq, if_pos hfin]
          have g1 : alookup (finStep m l acc tx).1.1 tx = none := by
            rw [gstep]
            exact alookup_aerase_self _ _
          have g2 : alookup (finStep m l acc tx).1.2 tx = none := by
            rw [gstep]
            exact alookup_aerase_self _ _
          rw [gstep] at g1 g2 ⊢
          exact finFold_none m l rest _ tx g1 g2
      · rw [if_neg hfin] at hmem
        exact Or.inl hmem
    · exact Or.inr hnone

/-- Every entry of the finalized batch stems from a visited active key. -/
theorem finFold_batch_keys (m l : ℕ) (ks : List ID)
    (acc : (List (ID × etaResult) × List (ID × Opinions)) × List TxOpinion) (t : TxOpinion)
    (h : t ∈ (ks.foldl (finStep m l) acc).2) :
    t ∈ acc.2 ∨ t.txHash ∈ ks := by
  induction ks generalizing acc with
  | nil => exact Or.inl h
  | cons k rest ih =>
    rw [List.foldl_cons] at h
    rcases ih (finStep m l acc k) h with hmem | hk
    · rw [finStep_eq] at hmem
      split at hmem
      · simp only [List.mem_append, List.mem_cons, List.not_mem_nil, or_false] at hmem
        rcases hmem with hmem | ht
        · exact Or.inl hmem
        · subst ht
          exact Or.inr (List.mem_cons_self _ _)
      · exact Or.inl hmem
    · exact Or.inr (List.mem_cons_of_mem _ hk)

/-- Every tx with an eta entry received at least one vote. -/
theorem calculateEtas_keys (votes : List TxOpinion) (tx : ID) (er : etaResult)
    (h : alookup (calculateEtas votes) tx = some er) : ∃ v ∈ votes, v.txHash = tx := by
  unfold calculateEtas at h
  rw [alookup_divide, calcFold_alookup] at h
  simp only [alookup_nil] at h
  by_cases h0 : voteCount votes tx = 0
  · rw [if_pos h0] at h
    exact Option.noConfusion h
  · have hpos : 0 < (votes.filter (fun v => v.txHash == tx)).length := by
      unfold voteCount at h0
      omega
    obtain ⟨v, hv⟩ := List.exists_mem_of_length_pos hpos
    have hvv := List.mem_filter.mp hv
    exact ⟨v, hvv.1, by simpa using hvv.2⟩

/-- Every vote attributed by the merge loop names a queried tx. -/
theorem addVotes_mem (txs : List ID) (votes : Opinions) (idx : ℕ)
    (acc res : List TxOpinion) (t : TxOpinion)
    (heq : addVotes txs votes idx acc = some res) (hmem : t ∈ res) :
    t ∈ acc ∨ t.txHash ∈ txs := by
  induction votes generalizing idx acc with
  | nil =>
    simp only [addVotes, Option.some.injEq] at heq
    subst heq
    exact Or.inl hmem
  | cons vote rest ih =>
    simp only [addVotes] at heq
    cases hg : txs[idx]? with
    | none =>
      rw [hg] at heq
      exact Option.noConfusion heq
    | some tx =>
      rw [hg] at heq
      dsimp only at heq
      rcases ih (idx + 1) (acc ++ [TxOpinion.mk tx vote]) heq with hin | hin
      · rcases List.mem_append.mp hin with hin2 | hin2
        · exact Or.inl hin2
        · right
          have ht : t = TxOpinion.mk tx vote := by simpa using hin2
          subst ht
          exact List.getElem?_mem hg
      · exact Or.inr hin

/-- Every collected vote of the merge loop names a queried tx. -/
theorem mergeFold_mem (txs : List ID) (responses : List Opinions)
    (acc res : List TxOpinion) (t : TxOpinion)
    (heq : responses.foldl (mergeStep txs) (some acc) = some res) (hmem : t ∈ res) :
    t ∈ acc ∨ t.txHash ∈ txs := by
  induction responses generalizing acc with
  | nil =>
    simp only [List.foldl_nil, Option.some.injEq] at heq
    subst heq
    exact Or.inl hmem
  | cons votes rest ih =>
    rw [List.foldl_cons] at heq
    have hstep : mergeStep txs (some acc) votes =
        if 0 < votes.length then addVotes txs votes 0 acc else some acc := rfl
    rw [hstep] at heq
    by_cases hv : 0 < votes.length
    · rw [if_pos hv] at heq
      cases ha : addVotes txs votes 0 acc with
      | none =>
        rw [ha, mergeFold_none] at heq
        exact Option.noConfusion heq
      | some acc2 =>
        rw [ha] at heq
        rcases ih acc2 heq with hin | hin
        · exact addVotes_mem txs votes 0 acc acc2 t ha hin
        · exact Or.inr hin
    · rw [if_neg hv] at heq
      exact ih acc heq

/-- Every key of the eta map returned by `querySample` is a queried tx. -/
theorem querySample_keys (txs : List ID) (k : ℕ) (nodes : List String)
    (picks : ℕ → ℕ) (qn : List ID → String → Opinions)
    (etas : List (ID × etaResult)) (tx : ID) (er : etaResult)
    (heq : querySample txs k nodes picks qn = some etas)
    (h : alookup etas tx = some er) : tx ∈ txs := by
  unfold querySample at heq
  cases hc : choose nodes k picks with
  | none =>
    rw [hc] at heq
    exact Option.noConfusion heq
  | some sel =>
    rw [hc] at heq
    dsimp only at heq
    cases hm : mergeVotes txs (sel.map (fun nodeID => qn txs nodeID)) with
    | none =>
      rw [hm] at heq
      exact Option.noConfusion heq
    | some result =>
      rw [hm] at heq
      dsimp only at heq
      have hetas : etas = calculateEtas result := by
        have h2 := heq
        simp only [Option.some.injEq] at h2
        exact h2.symm
      subst hetas
      obtain ⟨v, hvres, hvtx⟩ := calculateEtas_keys result tx er h
      have hv := mergeFold_mem txs (sel.map (fun nodeID => qn txs nodeID)) [] result v hm hvres
      rcases hv with hin | hin
      · exact absurd hin (List.not_mem_nil v)
      · rw [← hvtx]
        exact hin

/-- The update loop's body never adds a history entry for a new tx. -/
theorem updStep_none (p : Parameters) (x : ℚ) (histories : List (ID × Opinions))
    (entry : ID × etaResult) (tx : ID) (h : alookup histories tx = none) :
    alookup (updStep p x histories entry) tx = none := by
  unfold updStep
  cases hl : alookup histories entry.1 with
  | none => exact h
  | some history =>
    dsimp only
    split
    · by_cases hk : entry.1 = tx
      · subst hk
        rw [hl] at h
        exact Option.noConfusion h
      · rw [alookup_aupdate_other _ _ _ _ hk]
        exact h
    · exact h

/-- The update loop never adds a history entry for a new tx. -/
theorem updFold_none (p : Parameters) (x : ℚ) (acts : List (ID × etaResult))
    (histories : List (ID × Opinions)) (tx : ID) (h : alookup histories tx = none) :
    alookup (acts.foldl (updStep p x) histories) tx = none := by
  induction acts generalizing histories with
  | nil => exact h
  | cons entry rest ih =>
    rw [List.foldl_cons]
    exact ih (updStep p x histories entry) (updStep_none p x histories entry tx h)

/-- Draining an already-empty waiting list changes nothing. -/
theorem popTxs_empty_waiting (s : context) (h : s.waitingTxs = []) : popTxs s = s := by
  obtain ⟨w, a, o, p, t⟩ := s
  simp only at h
  subst h
  rfl

/-- Unfolding equation for `getFinalizedTxs`. -/
theorem getFinalizedTxs_eq (s : context) :
    getFinalizedTxs s =
      ({ s with
          activeTxs := ((akeys s.activeTxs).foldl (finStep s.parameters.m s.parameters.l)
            ((s.activeTxs, s.opinionHistory), [])).1.1
          opinionHistory := ((akeys s.activeTxs).foldl (finStep s.parameters.m s.parameters.l)
            ((s.activeTxs, s.opinionHistory), [])).1.2 },
        ((akeys s.activeTxs).foldl (finStep s.parameters.m s.parameters.l)
          ((s.activeTxs, s.opinionHistory), [])).2) := rfl

/-- Unfolding equation for `round`. -/
theorem round_eq (env : Env) (s : context) :
    round env s =
      match querySample (getActiveTxs (getFinalizedTxs (updateOpinion (popTxs s))).1)
          (getFinalizedTxs (updateOpinion (popTxs s))).1.parameters.k
          env.peers env.picks env.qn with
      | none => none
      | some etas =>
        some ({ (getFinalizedTxs (updateOpinion (popTxs s))).1 with
                  activeTxs :=
                    applyEtas (getFinalizedTxs (updateOpinion (popTxs s))).1.activeTxs etas },
              (getFinalizedTxs (updateOpinion (popTxs s))).2) := rfl

/-- A tx finalized by a round ends the round absent from both maps, with the
waiting list drained. -/
theorem round_finalized (env : Env) (s s' : context) (fin : List TxOpinion) (tx : ID)
    (hr : round env s = some (s', fin)) (hmem : tx ∈ fin.map TxOpinion.txHash) :
    s'.waitingTxs = [] ∧ alookup s'.activeTxs tx = none ∧
      alookup s'.opinionHistory tx = none := by
  rw [round_eq] at hr
  cases hq : querySample (getActiveTxs (getFinalizedTxs (updateOpinion (popTxs s))).1)
      (getFinalizedTxs (updateOpinion (popTxs s))).1.parameters.k
      env.peers env.picks env.qn with
  | none =>
    rw [hq] at hr
    exact Option.noConfusion hr
  | some etas =>
    rw [hq] at hr
    dsimp only at hr
    have hs' : s' = { (getFinalizedTxs (updateOpinion (popTxs s))).1 with
        activeTxs := applyEtas (getFinalizedTxs (updateOpinion (popTxs s))).1.activeTxs etas } := by
      have h2 := hr
      simp only [Option.some.injEq, Prod.mk.injEq] at h2
      exact h2.1.symm
    have hfin : fin = (getFinalizedTxs (updateOpinion (popTxs s))).2 := by
      have h2 := hr
      simp only [Option.some.injEq, Prod.mk.injEq] at h2
      exact h2.2.symm
    subst hs' hfin
    rw [getFinalizedTxs_eq] at hmem ⊢
    dsimp only at hmem ⊢
    rcases finFold_mem_batch _ _ _ _ tx hmem with hL | hR
    · simp at hL
    · obtain ⟨hn1, hn2⟩ := hR
      refine ⟨rfl, ?_, hn2⟩
      have hnk : tx ∉ getActiveTxs (getFinalizedTxs (updateOpinion (popTxs s))).1 := by
        rw [getFinalizedTxs_eq]
        exact not_mem_akeys_of_alookup_eq_none _ _ hn1
      have hetas : alookup etas tx = none := by
        cases he : alookup etas tx with
        | none => rfl
        | some er =>
          exact absurd (querySample_keys _ _ _ _ _ _ _ _ hq he) hnk
      rw [applyEtas_absent etas _ tx hetas]
      exact hn1

/-- A tx absent from the engine (given a drained waiting list) stays absent
through any further round and never re-enters a finalized batch. -/
theorem round_absent (env : Env) (s s' : context) (fin : List TxOpinion) (tx : ID)
    (hw : s.waitingTxs = []) (h1 : alookup s.activeTxs tx = none)
    (h2 : alookup s.opinionHistory tx = none)
    (hr : round env s = some (s', fin)) :
    s'.waitingTxs = [] ∧ alookup s'.activeTxs tx = none ∧
      alookup s'.opinionHistory tx = none ∧ ∀ t ∈ fin, t.txHash ≠ tx := by
  rw [round_eq, popTxs_empty_waiting s hw] at hr
  have hu1 : (updateOpinion s).activeTxs = s.activeTxs := rfl
  have hu2 : alookup (updateOpinion s).opinionHistory tx = none :=
    updFold_none s.parameters s.tick.x s.activeTxs s.opinionHistory tx h2
  have hf := finFold_none s.parameters.m s.parameters.l (akeys (updateOpinion s).activeTxs)
    (((updateOpinion s).activeTxs, (updateOpinion s).opinionHistory), []) tx
    (by rw [hu1]; exact h1) hu2
  cases hq : querySample (getActiveTxs (getFinalizedTxs (updateOpinion s)).1)
      (getFinalizedTxs (updateOpinion s)).1.parameters.k
      env.peers env.picks env.qn with
  | none =>
    rw [hq] at hr
    exact Option.noConfusion hr
  | some etas =>
    rw [hq] at hr
    dsimp only at hr
    have hs' : s' = { (getFinalizedTxs (updateOpinion s)).1 with
        activeTxs := applyEtas (getFinalizedTxs (updateOpinion s)).1.activeTxs etas } := by
      have h3 := hr
      simp only [Option.some.injEq, Prod.mk.injEq] at h3
      exact h3.1.symm
    have hfin : fin = (getFinalizedTxs (updateOpinion s)).2 := by
      have h3 := hr
      simp only [Option.some.injEq, Prod.mk.injEq] at h3
      exact h3.2.symm
    subst hs' hfin
    have hn1 : alookup (getFinalizedTxs (updateOpinion s)).1.activeTxs tx = none := by
      rw [getFinalizedTxs_eq]
      exact hf.1
    have hn2 : alookup (getFinalizedTxs (updateOpinion s)).1.opinionHistory tx = none := by
      rw [getFinalizedTxs_eq]
      exact hf.2
    have hnk : tx ∉ getActiveTxs (getFinalizedTxs (updateOpinion s)).1 :=
      not_mem_akeys_of_alookup_eq_none _ _ hn1
    have hetas : alookup etas tx = none := by
      cases he : alookup etas tx with
      | none => rfl
      | some er =>
        exact absurd (querySample_keys _ _ _ _ _ _ _ _ hq he) hnk
    refine ⟨?_, ?_, hn2, ?_⟩
    · show (getFinalizedTxs (updateOpinion s)).1.waitingTxs = []
      rw [getFinalizedTxs_eq]
      exact hw
    · show alookup (applyEtas (getFinalizedTxs (updateOpinion s)).1.activeTxs etas) tx = none
      rw [applyEtas_absent etas _ tx hetas]
      exact hn1
    · intro t hmem heq
      rcases finFold_batch_keys s.parameters.m s.parameters.l _ _ t
          (by rw [getFinalizedTxs_eq] at hmem; exact hmem) with hin | hin
      · simp at hin
      · rw [heq, hu1] at hin
        exact absurd hin (not_mem_akeys_of_alookup_eq_none _ _ h1)

/-- Absence of a tx is preserved by any sequence of ticks, and it appears in
no finalized batch. -/
theorem runTicks_absent (ticks : List (Env × ℕ × ℚ)) (s sEnd : context)
    (batches : List (List TxOpinion)) (tx : ID)
    (hw : s.waitingTxs = []) (h1 : alookup s.activeTxs tx = none)
    (h2 : alookup s.opinionHistory tx = none)
    (hr : runTicks ticks s = some (sEnd, batches)) :
    sEnd.waitingTxs = [] ∧ alookup sEnd.activeTxs tx = none ∧
      alookup sEnd.opinionHistory tx = none ∧
      ∀ b ∈ batches, ∀ t ∈ b, t.txHash ≠ tx := by
  induction ticks generalizing s batches with
  | nil =>
    simp only [runTicks, Option.some.injEq, Prod.mk.injEq] at hr
    obtain ⟨hs, hb⟩ := hr
    subst hs hb
    exact ⟨hw, h1, h2, by simp⟩
  | cons t rest ih =>
    simp only [runTicks] at hr
    cases ht : Tick t.1 s t.2.1 t.2.2 with
    | none =>
      rw [ht] at hr
      exact Option.noConfusion hr
    | some r =>
      rw [ht] at hr
      dsimp only at hr
      cases hrest : runTicks rest r.1 with
      | none =>
        rw [hrest] at hr
        exact Option.noConfusion hr
      | some r2 =>
        rw [hrest] at hr
        dsimp only at hr
        simp only [Option.some.injEq, Prod.mk.injEq] at hr
        obtain ⟨hs, hb⟩ := hr
        have hmid := round_absent t.1 { s with tick := newTick t.2.1 t.2.2 } r.1 r.2 tx
          hw h1 h2 (by rw [← ht]; rfl)
        have htail := ih r.1 r2.2 hmid.1 hmid.2.1 hmid.2.2.1
          (by rw [hrest, ← hs])
        subst hs
        refine ⟨htail.1, htail.2.1, htail.2.2.1, ?_⟩
        intro b hb2 tt htt
        rw [← hb] at hb2
        rcases List.mem_cons.mp hb2 with hb3 | hb3
        · subst hb3
          exact hmid.2.2.2 tt htt
        · exact htail.2.2.2 b hb3 tt htt

/-- **C4.** Once a tx is included in the finalized batch of a round
(`Tick`), it is deleted from the active map and from the opinion history
store in that same round — so its interim opinion is subsequently absent
from the store (the history store holds no entry for it; see C7 for what
the `GetInterimOpinion` API then reports) — and no finalized batch of any
later round contains it, for every sequence of ticks. -/
theorem claim_C4_finalization_retires (env : Env) (index : ℕ) (x : ℚ) (s s1 : context)
    (batch : List TxOpinion) (tx : TxOpinion) (ticks : List (Env × ℕ × ℚ))
    (sEnd : context) (batches : List (List TxOpinion))
    (ht : Tick env s index x = some (s1, batch)) (hmem : tx ∈ batch) :
    (alookup s1.activeTxs tx.txHash = none ∧ alookup s1.opinionHistory tx.txHash = none) ∧
    (runTicks ticks s1 = some (sEnd, batches) →
      alookup sEnd.activeTxs tx.txHash = none ∧
        alookup sEnd.opinionHistory tx.txHash = none ∧
        ∀ b ∈ batches, ∀ t ∈ b, t.txHash ≠ tx.txHash) := by
  have hm : tx.txHash ∈ batch.map TxOpinion.txHash := List.mem_map_of_mem _ hmem
  have hfin := round_finalized env { s with tick := newTick index x } s1 batch tx.txHash ht hm
  refine ⟨⟨hfin.2.1, hfin.2.2⟩, fun hrun => ?_⟩
  have h := runTicks_absent ticks s1 sEnd batches tx.txHash hfin.1 hfin.2.1 hfin.2.2 hrun
  exact ⟨h.2.1, h.2.2.1, h.2.2.2⟩

/-- Witness for C4: a one-tx engine whose history `[Like, Like]` finalizes
under `m = 0`, `l = 1` on the next tick; after that tick and one more, the
tx is gone from both maps and from all later batches. -/
theorem claim_C4_finalization_retires_witness :
    (alookup (⟨[], [], [], ⟨1, 0, 1, 1/4, 0, 1⟩, ⟨5, 0⟩⟩ : context).activeTxs "t" = none ∧
      alookup (⟨[], [], [], ⟨1, 0, 1, 1/4, 0, 1⟩, ⟨5, 0⟩⟩ : context).opinionHistory "t" = none) ∧
    (alookup (⟨[], [], [], ⟨1, 0, 1, 1/4, 0, 1⟩, ⟨6, 0⟩⟩ : context).activeTxs "t" = none ∧
      alookup (⟨[], [], [], ⟨1, 0, 1, 1/4, 0, 1⟩, ⟨6, 0⟩⟩ : context).opinionHistory "t" = none ∧
      ∀ b ∈ [([] : List TxOpinion)], ∀ t ∈ b, t.txHash ≠ (TxOpinion.mk "t" true).txHash) := by
  have h := claim_C4_finalization_retires ⟨["n"], fun i => i, fun _ts _n => []⟩ 5 0
    ⟨[], [("t", ⟨-1, 0⟩)], [("t", [true, true])], ⟨1, 0, 1, 1/4, 0, 1⟩, ⟨0, 0⟩⟩
    ⟨[], [], [], ⟨1, 0, 1, 1/4, 0, 1⟩, ⟨5, 0⟩⟩ [⟨"t", true⟩] ⟨"t", true⟩
    [(⟨["n"], fun i => i, fun _ts _n => []⟩, 6, 0)]
    ⟨[], [], [], ⟨1, 0, 1, 1/4, 0, 1⟩, ⟨6, 0⟩⟩ [[]]
    rfl (List.mem_cons_self _ _)
  exact ⟨h.1, h.2 rfl⟩

end Fpc
